import Mathlib

/-!
Shallow embedding of the FAST keypoint detector of `src/fast.rs` from the
`cv-detectors-rs` repository, together with proofs about the behaviour its
specification describes.  Machine integers (`u8`, `u16`, `i16`, `u32`,
`i64`) are modelled as `Nat`/`Int` with explicit wrapping wherever the
source widens, narrows or casts.
-/

namespace CVDetectors

/-- Modelled from the spec: `ImgCoords` lives in the repository's `utils`
module, which is not among the provided sources.  Spec section 3: a
Coordinate is a pair of non-negative integers identifying a pixel,
with `x` the column and `y` the row (spec section 6 output is `(x, y)`). -/
structure ImgCoords where
  x : Nat
  y : Nat
  deriving DecidableEq, Repr

instance : Inhabited ImgCoords := ⟨⟨0, 0⟩⟩

/-- Modelled from the spec: the `image` crate's `GrayImage` is an external
collaborator; spec section 6 describes it as an abstract capability with
`width`, `height` and 8-bit intensities addressed by (column, row).
Intensities are `Nat`s; theorems that need the `u8` range carry an
explicit `< 256` hypothesis. -/
structure GrayImage where
  width : Nat
  height : Nat
  pix : Nat → Nat → Nat

/-- Rust `FASTDetectorParams` of `src/fast.rs` (the two `u8` fields are
`Nat`s denoting values below 256). -/
structure FASTDetectorParams where
  threshold : Nat
  min_contig_neighbors : Nat
  do_high_speed_test : Bool
  do_nonmax_suppression : Bool
  deriving DecidableEq, Repr

/-- Rust `ComparedToCentre` of `src/fast.rs`. -/
inductive ComparedToCentre where
  | InBounds
  | Black
  | White
  deriving DecidableEq, Repr

/-- Two's-complement wrap of an integer into the `i16` range; models Rust
`i16` arithmetic results. -/
def wrapI16 (z : Int) : Int :=
  (z + 32768) % 65536 - 32768

/-- Truncating cast of an integer to `u32` (low 32 bits); models the Rust
`as u32` casts in the source. -/
def wrapU32 (z : Int) : Nat :=
  (z % 4294967296).toNat

/-- Rust `FASTDetector::is_black`:
`(pix_x as u16) + (self.params.threshold as u16) < pix_p as u16`.
The `u8` to `u16` casts are value-preserving; the `u16` sum wraps
modulo 2 ^ 16. -/
def is_black (threshold pix_p pix_x : Nat) : Bool :=
  decide ((pix_x + threshold) % 65536 < pix_p)

/-- Rust `FASTDetector::is_white`:
`(pix_x as i16) - (self.params.threshold as i16) > pix_p as i16`.
The `u8` to `i16` casts are value-preserving; the `i16` difference wraps
into the `i16` range. -/
def is_white (threshold pix_p pix_x : Nat) : Bool :=
  decide (wrapI16 ((pix_x : Int) - (threshold : Int)) > (pix_p : Int))

/-- Rust `FASTDetector::within_bounds`. -/
def within_bounds (threshold pix_p pix_x : Nat) : Bool :=
  !is_black threshold pix_p pix_x && !is_white threshold pix_p pix_x

/-- Rust `FASTDetector::NEIGHBOR_RELATIVE_COORDS`. -/
def NEIGHBOR_RELATIVE_COORDS : List (Int × Int) :=
  [(0, -3), (1, -3), (2, -2), (3, -1), (3, 0), (3, 1), (2, 2), (1, 3),
   (0, 3), (-1, 3), (-2, 2), (-3, 1), (-3, 0), (-3, -1), (-2, -2), (-1, -3)]

/-- Rust `FASTDetector::neighbor_vals`; the source computes each neighbor
coordinate in `i64` (which is exact here) and truncates it to `u32`. -/
def neighbor_vals (img : GrayImage) (coords : ImgCoords) : List Nat :=
  NEIGHBOR_RELATIVE_COORDS.map fun n_coords =>
    img.pix (wrapU32 ((coords.x : Int) + n_coords.1))
      (wrapU32 ((coords.y : Int) + n_coords.2))

/-- Rust `FASTDetector::neighbor_tags`. -/
def neighbor_tags (threshold : Nat) (neighbor_vals : List Nat)
    (central_pixel_val : Nat) : List ComparedToCentre :=
  neighbor_vals.map fun n_val =>
    if is_black threshold central_pixel_val n_val then ComparedToCentre.Black
    else if is_white threshold central_pixel_val n_val then ComparedToCentre.White
    else ComparedToCentre.InBounds

/-- Rust `FASTDetector::high_speed_test`.  The source reads the four
compass pixels with plain `u32` index arithmetic; `Nat` subtraction
coincides with it on the interior pixels the detector visits. -/
def high_speed_test (pr : FASTDetectorParams) (img : GrayImage)
    (coords : ImgCoords) : Bool :=
  let p := img.pix coords.x coords.y
  let up := img.pix coords.x (coords.y - 3)
  let right := img.pix (coords.x + 3) coords.y
  let down := img.pix coords.x (coords.y + 3)
  let left := img.pix (coords.x - 3) coords.y
  if within_bounds pr.threshold p up && within_bounds pr.threshold p down then
    false
  else if is_black pr.threshold p up && is_black pr.threshold p down then
    is_black pr.threshold p right || is_black pr.threshold p left
  else if is_white pr.threshold p up && is_white pr.threshold p down then
    is_white pr.threshold p right || is_white pr.threshold p left
  else if is_black pr.threshold p up || is_black pr.threshold p down then
    is_black pr.threshold p right && is_black pr.threshold p left
  else if is_white pr.threshold p up || is_white pr.threshold p down then
    is_white pr.threshold p right && is_white pr.threshold p left
  else
    false

/-- Classification of the 16 ring neighbors, as computed at the top of
Rust `FASTDetector::check_pixel` and `FASTDetector::get_score`. -/
def ring_tags (pr : FASTDetectorParams) (img : GrayImage)
    (coords : ImgCoords) : List ComparedToCentre :=
  neighbor_tags pr.threshold (neighbor_vals img coords)
    (img.pix coords.x coords.y)

/-- Value of the local `neighbor_tags` vector of `check_pixel` after its
first `extend` with its own first `min_contig_neighbors` elements. -/
def tags_once_extended (pr : FASTDetectorParams) (img : GrayImage)
    (coords : ImgCoords) : List ComparedToCentre :=
  ring_tags pr img coords ++
    (ring_tags pr img coords).take pr.min_contig_neighbors

/-- Value of the local `neighbor_tags_extended` vector of `check_pixel`:
a clone of the once-extended vector, extended again with the first
`min_contig_neighbors` elements of the once-extended vector. -/
def tags_twice_extended (pr : FASTDetectorParams) (img : GrayImage)
    (coords : ImgCoords) : List ComparedToCentre :=
  tags_once_extended pr img coords ++
    (tags_once_extended pr img coords).take pr.min_contig_neighbors

/-- The `corner_masks` array of `check_pixel`. -/
def corner_masks (n : Nat) : List (List ComparedToCentre) :=
  [List.replicate n ComparedToCentre.Black,
   List.replicate n ComparedToCentre.White]

/-- Rust `FASTDetector::check_pixel`: the doubly nested search loop with
early return, rendered as `any`; the slice
`neighbor_tags_extended[i..i + min_contig_neighbors]` is
`(List.drop i).take min_contig_neighbors`. -/
def check_pixel (pr : FASTDetectorParams) (img : GrayImage)
    (coords : ImgCoords) : Bool :=
  (List.range (tags_once_extended pr img coords).length).any fun i =>
    (corner_masks pr.min_contig_neighbors).any fun mask =>
      decide ((((tags_twice_extended pr img coords).drop i).take
        pr.min_contig_neighbors) = mask)

/-- One summand of Rust `FASTDetector::get_score`:
`((neighbor_vals[i] as i16 - p as i16).abs() - (self.params.threshold as i16)) as u32`. -/
def score_summand (threshold p n_val : Nat) : Nat :=
  wrapU32 (wrapI16
    (((wrapI16 ((n_val : Int) - (p : Int))).natAbs : Int) - (threshold : Int)))

/-- Rust `FASTDetector::get_score` (Eq. 8 of the FAST paper): a single pass
over the 16 neighbors accumulating the Black and White sums in wrapping
`u32` arithmetic, then the max of the two sums. -/
def get_score (pr : FASTDetectorParams) (img : GrayImage)
    (coords : ImgCoords) : Nat :=
  let p := img.pix coords.x coords.y
  let nv := neighbor_vals img coords
  let tags := neighbor_tags pr.threshold nv p
  let sums := (List.range nv.length).foldl
    (fun (s : Nat × Nat) i =>
      if tags.getD i ComparedToCentre.InBounds = ComparedToCentre.Black then
        ((s.1 + score_summand pr.threshold p (nv.getD i 0)) % 4294967296, s.2)
      else if tags.getD i ComparedToCentre.InBounds = ComparedToCentre.White then
        (s.1, (s.2 + score_summand pr.threshold p (nv.getD i 0)) % 4294967296)
      else s)
    (0, 0)
  max sums.1 sums.2

/-- One iteration of the inner comparison loop of Rust
`FASTDetector::nonmax_suppression`.  The state is the
`indices_to_remove` list together with a flag recording whether the
`break` statement has fired (after which the remaining iterations of the
inner loop do nothing). -/
def nmsInnerStep (pr : FASTDetectorParams) (img : GrayImage)
    (features : List ImgCoords) (idx : Nat) (s : List Nat × Bool)
    (idx2 : Nat) : List Nat × Bool :=
  if s.2 then s
  else if idx2 ∈ s.1 then s
  else
    let feat := features.getD idx default
    let feat2 := features.getD idx2 default
    if 1 < ((feat2.x : Int) - (feat.x : Int)).natAbs ∨
        1 < ((feat2.y : Int) - (feat.y : Int)).natAbs then s
    else if get_score pr img feat ≤ get_score pr img feat2 then
      (s.1 ++ [idx], true)
    else
      (s.1 ++ [idx2], false)

/-- The inner `for idx2 in idx + 1..features.len()` loop of
`nonmax_suppression`. -/
def innerLoop (pr : FASTDetectorParams) (img : GrayImage)
    (features : List ImgCoords) (idx : Nat) (rem : List Nat) : List Nat :=
  ((List.range' (idx + 1) (features.length - (idx + 1))).foldl
    (nmsInnerStep pr img features idx) (rem, false)).1

/-- The `indices_to_remove` list after the outer
`for (idx, feat) in features.iter().enumerate()` loop. -/
def nmsRemoveIndices (pr : FASTDetectorParams) (img : GrayImage)
    (features : List ImgCoords) : List Nat :=
  (List.range features.length).foldl
    (fun rem idx => innerLoop pr img features idx rem) []

/-- Rust `FASTDetector::nonmax_suppression`; the index-counting `retain`
at the end is a filter over the enumerated list. -/
def nonmax_suppression (pr : FASTDetectorParams) (img : GrayImage)
    (features : List ImgCoords) : List ImgCoords :=
  let indices_to_remove := nmsRemoveIndices pr img features
  (features.enum.filter fun q => decide (q.1 ∉ indices_to_remove)).map
    Prod.snd

/-- Rust `KeypointDetector::detect` for `FASTDetector`.  The `u32` scan
ranges `3..height - 3` and `3..width - 3` are `List.range' 3 (dim - 3 - 3)`
(the `Nat` truncated subtraction agrees with the `u32` one for the image
sizes the claims quantify over). -/
def detect (pr : FASTDetectorParams) (img : GrayImage)
    (features : List ImgCoords) : List ImgCoords :=
  let scanned := (List.range' 3 (img.height - 3 - 3)).foldl
    (fun acc row =>
      (List.range' 3 (img.width - 3 - 3)).foldl
        (fun acc2 col =>
          let coords : ImgCoords := ⟨col, row⟩
          if pr.do_high_speed_test && decide (pr.min_contig_neighbors = 12) &&
              !high_speed_test pr img coords then acc2
          else if check_pixel pr img coords then acc2 ++ [coords]
          else acc2)
        acc)
    features
  if pr.do_nonmax_suppression then nonmax_suppression pr img scanned
  else scanned

/-- Spec glossary: Chebyshev distance at most 1 in both axes
(8-connected adjacency). -/
def chebyshev_adjacent (a b : ImgCoords) : Prop :=
  ((b.x : Int) - (a.x : Int)).natAbs ≤ 1 ∧
    ((b.y : Int) - (a.y : Int)).natAbs ≤ 1

instance (a b : ImgCoords) : Decidable (chebyshev_adjacent a b) := by
  unfold chebyshev_adjacent; infer_instance

/-- Spec section 4.3: the 16 ring classifications contain a circular
(wrapping modulo 16) run of `n` consecutive positions starting at
position `i`, all of the single class `tag`. -/
def circular_run (pr : FASTDetectorParams) (img : GrayImage)
    (coords : ImgCoords) (i n : Nat) (tag : ComparedToCentre) : Prop :=
  ∀ j < n,
    (ring_tags pr img coords).getD ((i + j) % 16) ComparedToCentre.InBounds = tag

/-- Spec section 4.4 formula: the exact sum, over the ring neighbors
classified as `tag`, of |neighbor - center| - threshold. -/
def score_sum_spec (pr : FASTDetectorParams) (img : GrayImage)
    (coords : ImgCoords) (tag : ComparedToCentre) : Nat :=
  (((List.range 16).filter fun i =>
      decide ((ring_tags pr img coords).getD i ComparedToCentre.InBounds = tag)).map
    fun i =>
      (((neighbor_vals img coords).getD i 0 : Int) -
        (img.pix coords.x coords.y : Int)).natAbs - pr.threshold).sum

/-- The Rust `Default` instance for `FASTDetectorParams`. -/
def defaultParams : FASTDetectorParams :=
  ⟨10, 12, true, true⟩

/-- A 6 by 6 all-100 image (for the undersized-image claim). -/
def img6 : GrayImage := ⟨6, 6, fun _ _ => 100⟩

/-- A 7 by 7 all-100 image. -/
def img7uniform : GrayImage := ⟨7, 7, fun _ _ => 100⟩

/-- A 9 by 9 all-100 image. -/
def img9 : GrayImage := ⟨9, 9, fun _ _ => 100⟩

/-- Pixels set to intensity 200 in `imgC1`: the ring positions 9 to 15 and
0 to 4 around the centre (3, 3), a contiguous circular arc of 12. -/
def whitePixelsC1 : List (Nat × Nat) :=
  [(2, 6), (1, 5), (0, 4), (0, 3), (0, 2), (1, 1), (2, 0),
   (3, 0), (4, 0), (5, 1), (6, 2), (6, 3)]

/-- A 7 by 7 image whose centre (3, 3) has a contiguous circular arc of 12
Brighter ring neighbors (the arc avoiding the down compass point), while
the down compass neighbor (3, 6) is Darker. -/
def imgC1 : GrayImage :=
  ⟨7, 7, fun x y =>
    if (x, y) ∈ whitePixelsC1 then 200
    else if x = 3 ∧ y = 6 then 0
    else 100⟩

/-- Default threshold and arc length, pruning on, suppression off. -/
def paramsPruneOnly : FASTDetectorParams := ⟨10, 12, true, false⟩

/-- Default threshold and arc length, pruning off, suppression off. -/
def paramsPlain : FASTDetectorParams := ⟨10, 12, false, false⟩

/-- Parameters with `min_contig_neighbors = 0` (never validated by the
code, since the fields are public). -/
def paramsZeroArc : FASTDetectorParams := ⟨10, 0, true, true⟩

/-! ### Arithmetic facts about the widened comparisons -/

theorem wrapI16_eq_self {z : Int} (h1 : -32768 ≤ z) (h2 : z < 32768) :
    wrapI16 z = z := by
  unfold wrapI16
  rw [Int.emod_eq_of_lt (by omega) (by omega)]
  omega

theorem is_black_iff {t p x : Nat} (ht : t < 256) (hx : x < 256) :
    is_black t p x = true ↔ x + t < p := by
  unfold is_black
  rw [Nat.mod_eq_of_lt (by omega), decide_eq_true_iff]

theorem is_white_iff {t p x : Nat} (ht : t < 256) (hx : x < 256) :
    is_white t p x = true ↔ (p : Int) < (x : Int) - (t : Int) := by
  unfold is_white
  rw [wrapI16_eq_self (by omega) (by omega), decide_eq_true_iff]

theorem not_black_and_white {t p x : Nat} (ht : t < 256)
    (hx : x < 256) : ¬(is_black t p x = true ∧ is_white t p x = true) := by
  rintro ⟨hb, hw⟩
  rw [is_black_iff ht hx] at hb
  rw [is_white_iff ht hx] at hw
  omega

/-- C8: for every 8-bit (center, neighbor, threshold) triple the widened
comparisons of `is_black` and `is_white` compute the exact mathematical
predicates `neighbor + threshold < center` and
`neighbor - threshold > center` with no overflow, and exactly one of
`is_black`, `is_white`, `within_bounds` holds, so the classification in
`neighbor_tags` yields exactly one of Black, White, InBounds. -/
theorem C8_classification_exact (t p x : Nat) (ht : t < 256) (_hp : p < 256)
    (hx : x < 256) :
    (is_black t p x = true ↔ x + t < p) ∧
    (is_white t p x = true ↔ (p : Int) < (x : Int) - (t : Int)) ∧
    ((is_black t p x = true ∧ is_white t p x = false ∧
        within_bounds t p x = false) ∨
      (is_black t p x = false ∧ is_white t p x = true ∧
        within_bounds t p x = false) ∨
      (is_black t p x = false ∧ is_white t p x = false ∧
        within_bounds t p x = true)) := by
  refine ⟨is_black_iff ht hx, is_white_iff ht hx, ?_⟩
  have hex := not_black_and_white (p := p) ht hx
  unfold within_bounds
  cases hB : is_black t p x <;> cases hW : is_white t p x
  · exact Or.inr (Or.inr ⟨rfl, rfl, rfl⟩)
  · exact Or.inr (Or.inl ⟨rfl, rfl, rfl⟩)
  · exact Or.inl ⟨rfl, rfl, rfl⟩
  · exact absurd ⟨hB, hW⟩ hex

/-- Witness for C8 at the concrete triple (threshold, center, neighbor)
= (10, 100, 50), a Darker-classified neighbor. -/
theorem C8_classification_exact_witness :
    (10 : Nat) < 256 ∧ (100 : Nat) < 256 ∧ (50 : Nat) < 256 ∧
    ((is_black 10 100 50 = true ↔ 50 + 10 < 100) ∧
      (is_white 10 100 50 = true ↔ (100 : Int) < (50 : Int) - (10 : Int)) ∧
      ((is_black 10 100 50 = true ∧ is_white 10 100 50 = false ∧
          within_bounds 10 100 50 = false) ∨
        (is_black 10 100 50 = false ∧ is_white 10 100 50 = true ∧
          within_bounds 10 100 50 = false) ∨
        (is_black 10 100 50 = false ∧ is_white 10 100 50 = false ∧
          within_bounds 10 100 50 = true))) :=
  ⟨by decide, by decide, by decide,
    C8_classification_exact 10 100 50 (by decide) (by decide) (by decide)⟩

/-! ### Lengths of the ring lists -/

theorem neighbor_vals_length (img : GrayImage) (coords : ImgCoords) :
    (neighbor_vals img coords).length = 16 := by
  simp [neighbor_vals, NEIGHBOR_RELATIVE_COORDS]

theorem ring_tags_length (pr : FASTDetectorParams) (img : GrayImage)
    (coords : ImgCoords) : (ring_tags pr img coords).length = 16 := by
  simp [ring_tags, neighbor_tags, neighbor_vals_length]

theorem tags_once_length (pr : FASTDetectorParams) (img : GrayImage)
    (coords : ImgCoords) (h16 : pr.min_contig_neighbors ≤ 16) :
    (tags_once_extended pr img coords).length =
      16 + pr.min_contig_neighbors := by
  simp [tags_once_extended, List.length_append, List.length_take,
    ring_tags_length]
  omega

theorem tags_twice_length (pr : FASTDetectorParams) (img : GrayImage)
    (coords : ImgCoords) (h16 : pr.min_contig_neighbors ≤ 16) :
    (tags_twice_extended pr img coords).length =
      16 + 2 * pr.min_contig_neighbors := by
  simp [tags_twice_extended, List.length_append, List.length_take,
    tags_once_length pr img coords h16]
  omega

/-- C10: with `min_contig_neighbors ≤ 16` every index operation in
`check_pixel` is in bounds: the prefix slices of length
`min_contig_neighbors` taken of the tag vector (before and after the first
extension) exist, and every window `[i..i + min_contig_neighbors]` read by
the search loop lies inside the twice-extended vector. -/
theorem C10_check_pixel_indices_in_bounds (pr : FASTDetectorParams)
    (img : GrayImage) (coords : ImgCoords)
    (h16 : pr.min_contig_neighbors ≤ 16) :
    pr.min_contig_neighbors ≤ (ring_tags pr img coords).length ∧
    pr.min_contig_neighbors ≤ (tags_once_extended pr img coords).length ∧
    ∀ i < (tags_once_extended pr img coords).length,
      i + pr.min_contig_neighbors ≤
        (tags_twice_extended pr img coords).length := by
  have h1 := ring_tags_length pr img coords
  have h2 := tags_once_length pr img coords h16
  have h3 := tags_twice_length pr img coords h16
  exact ⟨by omega, by omega, fun i hi => by omega⟩

/-! ### Index access into the twice-extended tag vector -/

theorem tags_once_length_min (pr : FASTDetectorParams) (img : GrayImage)
    (coords : ImgCoords) :
    (tags_once_extended pr img coords).length =
      16 + min pr.min_contig_neighbors 16 := by
  simp [tags_once_extended, List.length_append, List.length_take,
    ring_tags_length]

theorem tags_twice_getD_lo (pr : FASTDetectorParams) (img : GrayImage)
    (coords : ImgCoords) {k : Nat} (hk : k < 16) (d : ComparedToCentre) :
    (tags_twice_extended pr img coords).getD k d =
      (ring_tags pr img coords).getD k d := by
  have hT := ring_tags_length pr img coords
  have h1 := tags_once_length_min pr img coords
  rw [List.getD_eq_getElem?_getD, List.getD_eq_getElem?_getD,
    tags_twice_extended]
  rw [List.getElem?_append, if_pos (by omega)]
  rw [tags_once_extended, List.getElem?_append, if_pos (by omega)]

theorem tags_twice_getD_mid (pr : FASTDetectorParams) (img : GrayImage)
    (coords : ImgCoords) {k : Nat} (h16 : pr.min_contig_neighbors ≤ 16)
    (hk1 : 16 ≤ k) (hk2 : k < 16 + pr.min_contig_neighbors)
    (d : ComparedToCentre) :
    (tags_twice_extended pr img coords).getD k d =
      (ring_tags pr img coords).getD (k - 16) d := by
  have hT := ring_tags_length pr img coords
  have h1 := tags_once_length_min pr img coords
  rw [List.getD_eq_getElem?_getD, List.getD_eq_getElem?_getD,
    tags_twice_extended]
  rw [List.getElem?_append, if_pos (by omega)]
  rw [tags_once_extended, List.getElem?_append, if_neg (by omega), hT]
  rw [List.getElem?_take, if_pos (by omega)]

theorem tags_twice_getD_hi (pr : FASTDetectorParams) (img : GrayImage)
    (coords : ImgCoords) {k : Nat} (h16 : pr.min_contig_neighbors ≤ 16)
    (hk1 : 16 + pr.min_contig_neighbors ≤ k)
    (hk2 : k < 16 + 2 * pr.min_contig_neighbors) (d : ComparedToCentre) :
    (tags_twice_extended pr img coords).getD k d =
      (ring_tags pr img coords).getD (k - 16 - pr.min_contig_neighbors) d := by
  have hT := ring_tags_length pr img coords
  have h1 := tags_once_length_min pr img coords
  rw [List.getD_eq_getElem?_getD, List.getD_eq_getElem?_getD,
    tags_twice_extended]
  rw [List.getElem?_append, if_neg (by omega), h1]
  have hidx : k - (16 + min pr.min_contig_neighbors 16) =
      k - 16 - pr.min_contig_neighbors := by omega
  rw [hidx, List.getElem?_take, if_pos (by omega)]
  rw [tags_once_extended, List.getElem?_append, if_pos (by omega)]

/-- A length-`n` window of a list equals `replicate n a` exactly when all
its positions hold `a`. -/
theorem window_eq_replicate_iff {α : Type} [DecidableEq α] (E : List α)
    {i n : Nat} (a d : α) (h : i + n ≤ E.length) :
    ((E.drop i).take n = List.replicate n a) ↔
      ∀ j < n, E.getD (i + j) d = a := by
  have hlen : ((E.drop i).take n).length = n := by
    simp [List.length_take, List.length_drop]
    omega
  constructor
  · intro he j hj
    have h3 : ((E.drop i).take n).getD j d = a := by
      rw [he]
      rw [List.getD_eq_getElem _ _ (by rw [List.length_replicate]; omega)]
      exact List.getElem_replicate _ _
    rw [List.getD_eq_getElem?_getD, List.getElem?_take, if_pos hj,
      List.getElem?_drop, ← List.getD_eq_getElem?_getD] at h3
    exact h3
  · intro hall
    rw [List.eq_replicate_iff]
    refine ⟨hlen, fun b hb => ?_⟩
    rw [List.mem_iff_getElem] at hb
    obtain ⟨j, hj, he⟩ := hb
    have hjn : j < n := by omega
    have h3 : ((E.drop i).take n).getD j d = b := by
      rw [List.getD_eq_getElem _ _ hj]
      exact he
    rw [List.getD_eq_getElem?_getD, List.getElem?_take, if_pos hjn,
      List.getElem?_drop, ← List.getD_eq_getElem?_getD] at h3
    have h4 := hall j hjn
    rw [h3] at h4
    exact h4

/-- A circular run starting inside the ring yields an all-`a` window of
the twice-extended vector at the same start position. -/
theorem run_gives_window (pr : FASTDetectorParams) (img : GrayImage)
    (coords : ImgCoords) (h16 : pr.min_contig_neighbors ≤ 16) {i0 : Nat}
    (hi0 : i0 < 16) (a : ComparedToCentre)
    (hr : circular_run pr img coords i0 pr.min_contig_neighbors a) :
    ((tags_twice_extended pr img coords).drop i0).take
      pr.min_contig_neighbors =
      List.replicate pr.min_contig_neighbors a := by
  have hE := tags_twice_length pr img coords h16
  rw [window_eq_replicate_iff _ a ComparedToCentre.InBounds (by omega)]
  intro j hj
  have h2 := hr j hj
  by_cases hc : i0 + j < 16
  · rw [tags_twice_getD_lo pr img coords hc]
    rw [Nat.mod_eq_of_lt hc] at h2
    exact h2
  · rw [tags_twice_getD_mid pr img coords h16 (by omega) (by omega)]
    have hmod : (i0 + j) % 16 = i0 + j - 16 := by omega
    rw [hmod] at h2
    exact h2

/-- An all-`a` window of the twice-extended vector (at any start position
the search loop visits) yields a circular run inside the ring. -/
theorem window_gives_run (pr : FASTDetectorParams) (img : GrayImage)
    (coords : ImgCoords) (h16 : pr.min_contig_neighbors ≤ 16) {i : Nat}
    (hi : i < 16 + pr.min_contig_neighbors) (a : ComparedToCentre)
    (hw : ((tags_twice_extended pr img coords).drop i).take
        pr.min_contig_neighbors =
        List.replicate pr.min_contig_neighbors a) :
    ∃ i0 < 16, circular_run pr img coords i0 pr.min_contig_neighbors a := by
  have hE := tags_twice_length pr img coords h16
  rw [window_eq_replicate_iff _ a ComparedToCentre.InBounds (by omega)] at hw
  by_cases hc : i < 16
  · refine ⟨i, hc, fun j hj => ?_⟩
    have h2 := hw j hj
    by_cases hcc : i + j < 16
    · rw [tags_twice_getD_lo pr img coords hcc] at h2
      rw [Nat.mod_eq_of_lt hcc]
      exact h2
    · rw [tags_twice_getD_mid pr img coords h16 (by omega) (by omega)] at h2
      have hmod : (i + j) % 16 = i + j - 16 := by omega
      rw [hmod]
      exact h2
  · have hall : ∀ r < pr.min_contig_neighbors,
        (ring_tags pr img coords).getD r ComparedToCentre.InBounds = a := by
      intro r hr
      by_cases hrs : i - 16 ≤ r
      · have h2 := hw (r - (i - 16)) (by omega)
        rw [tags_twice_getD_mid pr img coords h16 (by omega) (by omega)] at h2
        have hidx : i + (r - (i - 16)) - 16 = r := by omega
        rw [hidx] at h2
        exact h2
      · have h2 := hw (r + pr.min_contig_neighbors - (i - 16)) (by omega)
        rw [tags_twice_getD_hi pr img coords h16 (by omega) (by omega)] at h2
        have hidx : i + (r + pr.min_contig_neighbors - (i - 16)) - 16 -
            pr.min_contig_neighbors = r := by omega
        rw [hidx] at h2
        exact h2
    refine ⟨0, by omega, fun j hj => ?_⟩
    have hmod : (0 + j) % 16 = j := by omega
    rw [hmod]
    exact hall j hj

/-- Unpacking of the `check_pixel` search loop: some visited window equals
one of the two corner masks. -/
theorem check_pixel_eq_window_exists (pr : FASTDetectorParams)
    (img : GrayImage) (coords : ImgCoords) :
    check_pixel pr img coords = true ↔
      ∃ i < (tags_once_extended pr img coords).length,
        (((tags_twice_extended pr img coords).drop i).take
            pr.min_contig_neighbors =
          List.replicate pr.min_contig_neighbors ComparedToCentre.Black) ∨
        (((tags_twice_extended pr img coords).drop i).take
            pr.min_contig_neighbors =
          List.replicate pr.min_contig_neighbors ComparedToCentre.White) := by
  unfold check_pixel corner_masks
  simp only [List.any_eq_true, List.mem_range, List.mem_cons,
    List.not_mem_nil, or_false, decide_eq_true_iff]
  constructor
  · rintro ⟨i, hi, mask, hmask | hmask, heq⟩
    · exact ⟨i, hi, Or.inl (by rw [heq, hmask])⟩
    · exact ⟨i, hi, Or.inr (by rw [heq, hmask])⟩
  · rintro ⟨i, hi, h | h⟩
    · exact ⟨i, hi, _, Or.inl rfl, h⟩
    · exact ⟨i, hi, _, Or.inr rfl, h⟩

/-- C3: for `1 ≤ min_contig_neighbors ≤ 16`, `check_pixel` returns true
exactly when the circular sequence of the 16 neighbor classifications
contains a contiguous wrapping run of `min_contig_neighbors` positions
that is uniformly Black or uniformly White, and it returns false when no
such run exists. -/
theorem C3_check_pixel_iff_circular_run (pr : FASTDetectorParams)
    (img : GrayImage) (coords : ImgCoords)
    (h1 : 1 ≤ pr.min_contig_neighbors)
    (h16 : pr.min_contig_neighbors ≤ 16) :
    check_pixel pr img coords = true ↔
      ∃ i < 16,
        (circular_run pr img coords i pr.min_contig_neighbors
            ComparedToCentre.Black ∨
          circular_run pr img coords i pr.min_contig_neighbors
            ComparedToCentre.White) := by
  rw [check_pixel_eq_window_exists]
  constructor
  · rintro ⟨i, hi, hB | hW⟩
    · rw [tags_once_length pr img coords h16] at hi
      obtain ⟨i0, hi0, hrun⟩ := window_gives_run pr img coords h16 hi _ hB
      exact ⟨i0, hi0, Or.inl hrun⟩
    · rw [tags_once_length pr img coords h16] at hi
      obtain ⟨i0, hi0, hrun⟩ := window_gives_run pr img coords h16 hi _ hW
      exact ⟨i0, hi0, Or.inr hrun⟩
  · rintro ⟨i0, hi0, hB | hW⟩
    · refine ⟨i0, ?_, Or.inl (run_gives_window pr img coords h16 hi0 _ hB)⟩
      rw [tags_once_length pr img coords h16]
      omega
    · refine ⟨i0, ?_, Or.inr (run_gives_window pr img coords h16 hi0 _ hW)⟩
      rw [tags_once_length pr img coords h16]
      omega

/-- Witness for C3: the default arc length 12 on the concrete image
`imgC1` at its centre pixel. -/
theorem C3_check_pixel_iff_circular_run_witness :
    1 ≤ paramsPlain.min_contig_neighbors ∧
    paramsPlain.min_contig_neighbors ≤ 16 ∧
    (check_pixel paramsPlain imgC1 ⟨3, 3⟩ = true ↔
      ∃ i < 16,
        (circular_run paramsPlain imgC1 ⟨3, 3⟩ i
            paramsPlain.min_contig_neighbors ComparedToCentre.Black ∨
          circular_run paramsPlain imgC1 ⟨3, 3⟩ i
            paramsPlain.min_contig_neighbors ComparedToCentre.White)) :=
  ⟨by decide, by decide,
    C3_check_pixel_iff_circular_run paramsPlain imgC1 ⟨3, 3⟩ (by decide)
      (by decide)⟩

/-! ### The non-maximum suppression removal loop (C4) -/

theorem nmsInnerStep_subset (pr : FASTDetectorParams) (img : GrayImage)
    (features : List ImgCoords) (idx : Nat) (s : List Nat × Bool)
    (idx2 : Nat) {x : Nat} (hx : x ∈ s.1) :
    x ∈ (nmsInnerStep pr img features idx s idx2).1 := by
  simp only [nmsInnerStep]
  split
  · exact hx
  split
  · exact hx
  split
  · exact hx
  split
  · exact List.mem_append_left _ hx
  · exact List.mem_append_left _ hx

theorem nmsInnerFold_subset (pr : FASTDetectorParams) (img : GrayImage)
    (features : List ImgCoords) (idx : Nat) :
    ∀ (l : List Nat) (s : List Nat × Bool) {x : Nat}, x ∈ s.1 →
      x ∈ (l.foldl (nmsInnerStep pr img features idx) s).1 := by
  intro l
  induction l with
  | nil => exact fun s x hx => hx
  | cons c rest ih =>
    intro s x hx
    rw [List.foldl_cons]
    exact ih _ (nmsInnerStep_subset pr img features idx s c hx)

/-- Each inner-loop step either marks `idx`, marks the probed index, or
was comparing a pair that is not 8-connected. -/
theorem nmsInnerStep_cases (pr : FASTDetectorParams) (img : GrayImage)
    (features : List ImgCoords) (idx : Nat) (s : List Nat × Bool) (c : Nat)
    (hinv : s.2 = true → idx ∈ s.1) :
    idx ∈ (nmsInnerStep pr img features idx s c).1 ∨
    c ∈ (nmsInnerStep pr img features idx s c).1 ∨
    ¬ chebyshev_adjacent (features.getD idx default)
      (features.getD c default) := by
  simp only [nmsInnerStep]
  split
  · next h => exact Or.inl (hinv h)
  split
  · next h => exact Or.inr (Or.inl h)
  split
  · next h =>
    refine Or.inr (Or.inr ?_)
    intro hadj
    obtain ⟨h1, h2⟩ := hadj
    rcases h with h | h
    · omega
    · omega
  split
  · exact Or.inl (List.mem_append_right _ (List.mem_singleton.mpr rfl))
  · exact Or.inr (Or.inl (List.mem_append_right _ (List.mem_singleton.mpr rfl)))

/-- The break flag is only ever set together with pushing `idx`. -/
theorem nmsInnerStep_inv (pr : FASTDetectorParams) (img : GrayImage)
    (features : List ImgCoords) (idx : Nat) (s : List Nat × Bool) (c : Nat)
    (hinv : s.2 = true → idx ∈ s.1) :
    (nmsInnerStep pr img features idx s c).2 = true →
      idx ∈ (nmsInnerStep pr img features idx s c).1 := by
  simp only [nmsInnerStep]
  split
  · exact hinv
  next h1 =>
  split
  · intro h2
    exact absurd h2 h1
  split
  · intro h2
    exact absurd h2 h1
  split
  · intro _
    exact List.mem_append_right _ (List.mem_singleton.mpr rfl)
  · intro h2
    exact Bool.noConfusion h2

theorem nmsInnerFold_key (pr : FASTDetectorParams) (img : GrayImage)
    (features : List ImgCoords) (idx : Nat) :
    ∀ (l : List Nat) (s : List Nat × Bool) (j : Nat),
      (s.2 = true → idx ∈ s.1) → j ∈ l →
      idx ∉ (l.foldl (nmsInnerStep pr img features idx) s).1 →
      j ∉ (l.foldl (nmsInnerStep pr img features idx) s).1 →
      ¬ chebyshev_adjacent (features.getD idx default)
        (features.getD j default) := by
  intro l
  induction l with
  | nil =>
    intro s j _ hj
    exact absurd hj (List.not_mem_nil _)
  | cons c rest ih =>
    intro s j hinv hj hidx hjmem
    rw [List.foldl_cons] at hidx hjmem
    have hinv2 := nmsInnerStep_inv pr img features idx s c hinv
    rcases List.mem_cons.mp hj with rfl | hj2
    · rcases nmsInnerStep_cases pr img features idx s j hinv with h | h | h
      · exact absurd (nmsInnerFold_subset pr img features idx rest _ h) hidx
      · exact absurd (nmsInnerFold_subset pr img features idx rest _ h) hjmem
      · exact h
    · exact ih _ j hinv2 hj2 hidx hjmem

theorem nmsOuterFold_subset (pr : FASTDetectorParams) (img : GrayImage)
    (features : List ImgCoords) :
    ∀ (l : List Nat) (rem : List Nat) {x : Nat}, x ∈ rem →
      x ∈ l.foldl (fun r i => innerLoop pr img features i r) rem := by
  intro l
  induction l with
  | nil => exact fun rem x hx => hx
  | cons c rest ih =>
    intro rem x hx
    rw [List.foldl_cons]
    refine ih _ ?_
    unfold innerLoop
    exact nmsInnerFold_subset pr img features c _ _ hx

theorem nmsOuterFold_key (pr : FASTDetectorParams) (img : GrayImage)
    (features : List ImgCoords) :
    ∀ (l : List Nat) (rem : List Nat) (a b : Nat),
      a ∈ l → a < b → b < features.length →
      a ∉ l.foldl (fun r i => innerLoop pr img features i r) rem →
      b ∉ l.foldl (fun r i => innerLoop pr img features i r) rem →
      ¬ chebyshev_adjacent (features.getD a default)
        (features.getD b default) := by
  intro l
  induction l with
  | nil =>
    intro rem a b ha
    exact absurd ha (List.not_mem_nil _)
  | cons c rest ih =>
    intro rem a b ha hab hb hA hB
    rw [List.foldl_cons] at hA hB
    rcases List.mem_cons.mp ha with rfl | ha2
    · have hA2 : a ∉ innerLoop pr img features a rem := fun hmem =>
        hA (nmsOuterFold_subset pr img features rest _ hmem)
      have hB2 : b ∉ innerLoop pr img features a rem := fun hmem =>
        hB (nmsOuterFold_subset pr img features rest _ hmem)
      unfold innerLoop at hA2 hB2
      refine nmsInnerFold_key pr img features a _ (rem, false) b ?_ ?_ hA2 hB2
      · intro h
        exact Bool.noConfusion h
      · rw [List.mem_range']
        exact ⟨b - (a + 1), by omega, by omega⟩
    · exact ih _ a b ha2 hab hb hA hB

/-- Two indices that both survive the removal loop are never 8-connected. -/
theorem nmsRemoveIndices_key (pr : FASTDetectorParams) (img : GrayImage)
    (features : List ImgCoords) {a b : Nat} (hab : a < b)
    (hb : b < features.length)
    (ha : a ∉ nmsRemoveIndices pr img features)
    (hbm : b ∉ nmsRemoveIndices pr img features) :
    ¬ chebyshev_adjacent (features.getD a default)
      (features.getD b default) := by
  unfold nmsRemoveIndices at ha hbm
  exact nmsOuterFold_key pr img features _ [] a b
    (List.mem_range.mpr (by omega)) hab hb ha hbm

theorem pairwise_fst_lt_enumFrom {α : Type} :
    ∀ (l : List α) (n : Nat),
      List.Pairwise (fun a b : Nat × α => a.1 < b.1) (List.enumFrom n l) := by
  intro l
  induction l with
  | nil => intro n; simp
  | cons x xs ih =>
    intro n
    rw [List.enumFrom_cons]
    refine List.Pairwise.cons ?_ (ih (n + 1))
    intro p hp
    obtain ⟨i, y⟩ := p
    have h := (List.mem_enumFrom hp).1
    simpa using by omega

theorem mem_enum_facts {α : Type} [Inhabited α] {p : Nat × α} {l : List α}
    (hp : p ∈ l.enum) : p.1 < l.length ∧ l.getD p.1 default = p.2 := by
  obtain ⟨i, y⟩ := p
  obtain ⟨h1, h2, h3⟩ := List.mem_enumFrom hp
  refine ⟨by omega, ?_⟩
  simp only [Nat.sub_zero] at h3
  rw [List.getD_eq_getElem _ _ (by omega)]
  exact h3.symm

theorem enum_filter_map_sublist {α : Type} (q : Nat × α → Bool) :
    ∀ (l : List α) (n : Nat),
      (((List.enumFrom n l).filter q).map Prod.snd).Sublist l := by
  intro l
  induction l with
  | nil => intro n; simp
  | cons x xs ih =>
    intro n
    rw [List.enumFrom_cons, List.filter_cons]
    split
    · rw [List.map_cons]
      exact List.Sublist.cons₂ _ (ih (n + 1))
    · exact List.Sublist.cons _ (ih (n + 1))

/-- C4: after `nonmax_suppression` no two surviving features are within
Chebyshev distance 1 of each other, and the survivors are a subsequence
(relative order preserved) of the pre-suppression list.  This holds
unconditionally, with no proviso about equal-score cycles. -/
theorem C4_nonmax_suppression_postcondition (pr : FASTDetectorParams)
    (img : GrayImage) (features : List ImgCoords) :
    List.Pairwise (fun a b => ¬ chebyshev_adjacent a b)
      (nonmax_suppression pr img features) ∧
    (nonmax_suppression pr img features).Sublist features := by
  simp only [nonmax_suppression]
  constructor
  · rw [List.pairwise_map]
    have hpw : List.Pairwise (fun a b : Nat × ImgCoords => a.1 < b.1)
        (features.enum.filter fun q =>
          decide (q.1 ∉ nmsRemoveIndices pr img features)) :=
      List.Pairwise.filter _ (pairwise_fst_lt_enumFrom features 0)
    refine List.Pairwise.imp_of_mem ?_ hpw
    intro a b ha hb hlt
    obtain ⟨ha2, haq⟩ := List.mem_filter.mp ha
    obtain ⟨hb2, hbq⟩ := List.mem_filter.mp hb
    obtain ⟨haL, haD⟩ := mem_enum_facts ha2
    obtain ⟨hbL, hbD⟩ := mem_enum_facts hb2
    rw [decide_eq_true_iff] at haq hbq
    rw [← haD, ← hbD]
    exact nmsRemoveIndices_key pr img features hlt hbL haq hbq
  · exact enum_filter_map_sublist _ features 0

/-! ### Pruning unsoundness (C1) -/

/-- C1: evaluation of the code at the failing input.  On `imgC1` the
centre pixel (3, 3) has a contiguous circular arc of 12 Brighter ring
neighbors, so the full test accepts it, yet `high_speed_test` rejects it
(the Darker down-compass pixel makes the Darker branch of the else-if
chain preempt the Brighter one); consequently `detect` with pruning
enabled misses a pixel that `detect` with pruning disabled reports. -/
theorem C1_pruning_unsound_eval :
    check_pixel paramsPruneOnly imgC1 ⟨3, 3⟩ = true ∧
    high_speed_test paramsPruneOnly imgC1 ⟨3, 3⟩ = false ∧
    detect paramsPruneOnly imgC1 [] = [] ∧
    detect paramsPlain imgC1 [] = [⟨3, 3⟩] :=
  ⟨by decide, by decide, by decide, by decide⟩

/-! ### Tie-breaking in non-maximum suppression (C2) -/

/-- C2 counterexample: two 8-connected features with exactly equal scores
on a uniform image; `nonmax_suppression` keeps the SECOND-encountered one
and removes the first, contradicting the claim that the second-encountered
one is marked for removal. -/
theorem C2_counterexample :
    get_score defaultParams img9 ⟨3, 3⟩ = get_score defaultParams img9 ⟨4, 3⟩ ∧
    chebyshev_adjacent ⟨3, 3⟩ ⟨4, 3⟩ ∧
    nonmax_suppression defaultParams img9 [⟨3, 3⟩, ⟨4, 3⟩] = [⟨4, 3⟩] :=
  ⟨by decide, by decide, by decide⟩

/-- C2 (amended): when the inner suppression loop, not yet broken, reaches
an in-range unmarked index whose feature is 8-connected to the current
outer feature and the two scores are exactly equal, it is the
first-encountered feature (the outer index `idx`) that is marked for
removal and the inner loop breaks; the second-encountered feature is not
marked by that comparison. -/
theorem C2_nms_tie_marks_first (pr : FASTDetectorParams) (img : GrayImage)
    (features : List ImgCoords) (idx idx2 : Nat) (s : List Nat × Bool)
    (hflag : s.2 = false) (hmem : idx2 ∉ s.1)
    (hadj : chebyshev_adjacent (features.getD idx default)
      (features.getD idx2 default))
    (heq : get_score pr img (features.getD idx default) =
      get_score pr img (features.getD idx2 default)) :
    nmsInnerStep pr img features idx s idx2 = (s.1 ++ [idx], true) := by
  obtain ⟨h1, h2⟩ := hadj
  simp only [nmsInnerStep]
  rw [if_neg (by rw [hflag]; exact Bool.false_ne_true)]
  rw [if_neg hmem]
  rw [if_neg (by push_neg; exact ⟨by omega, by omega⟩)]
  rw [if_pos (le_of_eq heq)]

/-- Witness for the amended C2 at the concrete tie of `C2_counterexample`. -/
theorem C2_nms_tie_marks_first_witness :
    (([] : List Nat), false).2 = false ∧
    (1 : Nat) ∉ ([] : List Nat) ∧
    chebyshev_adjacent (([⟨3, 3⟩, ⟨4, 3⟩] : List ImgCoords).getD 0 default)
      (([⟨3, 3⟩, ⟨4, 3⟩] : List ImgCoords).getD 1 default) ∧
    get_score defaultParams img9 (([⟨3, 3⟩, ⟨4, 3⟩] : List ImgCoords).getD 0 default) =
      get_score defaultParams img9 (([⟨3, 3⟩, ⟨4, 3⟩] : List ImgCoords).getD 1 default) ∧
    nmsInnerStep defaultParams img9 [⟨3, 3⟩, ⟨4, 3⟩] 0 ([], false) 1 =
      (([] : List Nat) ++ [0], true) :=
  ⟨rfl, by decide, by decide, by decide,
    C2_nms_tie_marks_first defaultParams img9 [⟨3, 3⟩, ⟨4, 3⟩] 0 1 ([], false)
      rfl (by decide) (by decide) (by decide)⟩

/-! ### Undersized images (C5) -/

theorem nonmax_suppression_nil (pr : FASTDetectorParams) (img : GrayImage) :
    nonmax_suppression pr img [] = [] := rfl

/-- C5 counterexample: on a concrete 6 by 6 image `detect` raises no error
at all; it silently returns with no features appended (the scan ranges
`3..height - 3` and `3..width - 3` are empty), contradicting the claim
that an `ImageTooSmall` error is raised. -/
theorem C5_counterexample : detect defaultParams img6 [] = [] := by decide

/-- C5 (amended): `detect` has no error channel and performs no size
validation.  On any 6 by 6 image it reads no pixel at all — the result is
the unchanged empty feature list for every pixel content and every
parameter choice. -/
theorem C5_detect_6x6_silent (pr : FASTDetectorParams)
    (pix : Nat → Nat → Nat) : detect pr ⟨6, 6, pix⟩ [] = [] := by
  cases hnms : pr.do_nonmax_suppression
  · simp only [detect, hnms]
    rfl
  · simp only [detect, hnms]
    rfl

/-! ### Append-only output (C6) -/

/-- C6 counterexample: with suppression enabled, `detect` removes a
pre-existing caller-supplied entry: on a uniform image where the scan adds
nothing, the caller's entry (3, 3) disappears from the result. -/
theorem C6_counterexample :
    detect defaultParams img9 [⟨3, 3⟩, ⟨4, 3⟩] = [⟨4, 3⟩] := by decide

theorem foldl_append_extension {α β : Type} (step : List α → β → List α)
    (hstep : ∀ a x, ∃ u, step a x = a ++ u) :
    ∀ (l : List β) (a : List α), ∃ t, l.foldl step a = a ++ t := by
  intro l
  induction l with
  | nil =>
    intro a
    exact ⟨[], by simp⟩
  | cons c rest ih =>
    intro a
    rw [List.foldl_cons]
    obtain ⟨u, hu⟩ := hstep a c
    obtain ⟨t, ht⟩ := ih (step a c)
    exact ⟨u ++ t, by rw [ht, hu, List.append_assoc]⟩

/-- C6 (amended): the scan phase of `detect` only ever appends, so when
non-maximum suppression is disabled every pre-existing entry of the
caller-supplied vector is still present, unmodified, in its original
position.  (With suppression enabled the pass runs over the whole vector
and can delete pre-existing entries, as `C6_counterexample` shows.) -/
theorem C6_detect_appends_without_suppression (pr : FASTDetectorParams)
    (img : GrayImage) (features : List ImgCoords)
    (hnms : pr.do_nonmax_suppression = false) :
    ∃ tail, detect pr img features = features ++ tail := by
  simp only [detect, hnms]
  rw [if_neg Bool.false_ne_true]
  refine foldl_append_extension _ ?_ _ features
  intro acc row
  refine foldl_append_extension _ ?_ _ acc
  intro acc2 col
  dsimp only
  split
  · exact ⟨[], by simp⟩
  split
  · exact ⟨[⟨col, row⟩], rfl⟩
  · exact ⟨[], by simp⟩

/-- Witness for the amended C6: with suppression off, a caller-supplied
entry survives in place. -/
theorem C6_detect_appends_without_suppression_witness :
    paramsPlain.do_nonmax_suppression = false ∧
    ∃ tail, detect paramsPlain img7uniform [⟨9, 9⟩] = [⟨9, 9⟩] ++ tail :=
  ⟨rfl, C6_detect_appends_without_suppression paramsPlain img7uniform
    [⟨9, 9⟩] rfl⟩

/-! ### Uniform images (C7) -/

/-- C7 counterexample: with `min_contig_neighbors = 0` (a value the claim
quantifies over, since the public field is never validated) every mask is
the empty list, every window comparison succeeds, and `detect` reports
every interior pixel even on a uniform image. -/
theorem C7_counterexample :
    (∀ x y, img7uniform.pix x y = 100) ∧
    detect paramsZeroArc img7uniform [] = [⟨3, 3⟩] :=
  ⟨fun _ _ => rfl, by decide⟩

/-- On a uniform image every ring classification is `InBounds`. -/
theorem ring_tags_uniform (pr : FASTDetectorParams) (img : GrayImage)
    (v : Nat) (hv : v < 256) (ht : pr.threshold < 256)
    (huni : ∀ x y, img.pix x y = v) (coords : ImgCoords) :
    ∀ a ∈ ring_tags pr img coords, a = ComparedToCentre.InBounds := by
  intro a ha
  unfold ring_tags neighbor_tags at ha
  rw [List.mem_map] at ha
  obtain ⟨w, hw, hwa⟩ := ha
  have hwv : w = v := by
    unfold neighbor_vals at hw
    rw [List.mem_map] at hw
    obtain ⟨c, _, hc⟩ := hw
    rw [← hc, huni]
  have hb : is_black pr.threshold v v = false := by
    rw [Bool.eq_false_iff]
    intro h
    rw [is_black_iff ht (by omega)] at h
    omega
  have hwhite : is_white pr.threshold v v = false := by
    rw [Bool.eq_false_iff]
    intro h
    rw [is_white_iff ht (by omega)] at h
    omega
  rw [← hwa, hwv, huni, hb, hwhite]
  rfl

/-- On a uniform image `check_pixel` rejects every pixel (for any positive
arc length). -/
theorem check_pixel_uniform_false (pr : FASTDetectorParams) (img : GrayImage)
    (v : Nat) (hv : v < 256) (ht : pr.threshold < 256)
    (huni : ∀ x y, img.pix x y = v) (h1 : 1 ≤ pr.min_contig_neighbors)
    (coords : ImgCoords) : check_pixel pr img coords = false := by
  have htags := ring_tags_uniform pr img v hv ht huni coords
  have hmem : ∀ a ∈ tags_twice_extended pr img coords,
      a = ComparedToCentre.InBounds := by
    intro a ha
    rw [tags_twice_extended, List.mem_append] at ha
    rcases ha with ha | ha
    · rw [tags_once_extended, List.mem_append] at ha
      rcases ha with ha | ha
      · exact htags a ha
      · exact htags a (List.mem_of_mem_take ha)
    · have ha2 := List.mem_of_mem_take ha
      rw [tags_once_extended, List.mem_append] at ha2
      rcases ha2 with ha2 | ha2
      · exact htags a ha2
      · exact htags a (List.mem_of_mem_take ha2)
  rw [Bool.eq_false_iff]
  intro hcp
  rw [check_pixel_eq_window_exists] at hcp
  obtain ⟨i, hi, hcase⟩ := hcp
  rcases hcase with hwin | hwin
  · have hblack : ComparedToCentre.Black ∈
        ((tags_twice_extended pr img coords).drop i).take
          pr.min_contig_neighbors := by
      rw [hwin, List.mem_replicate]
      exact ⟨by omega, rfl⟩
    have h2 := hmem _ (List.mem_of_mem_drop (List.mem_of_mem_take hblack))
    exact ComparedToCentre.noConfusion h2
  · have hwhite : ComparedToCentre.White ∈
        ((tags_twice_extended pr img coords).drop i).take
          pr.min_contig_neighbors := by
      rw [hwin, List.mem_replicate]
      exact ⟨by omega, rfl⟩
    have h2 := hmem _ (List.mem_of_mem_drop (List.mem_of_mem_take hwhite))
    exact ComparedToCentre.noConfusion h2

theorem foldl_invariant_nil {α β : Type} (step : List α → β → List α)
    (hstep : ∀ x, step [] x = []) :
    ∀ l : List β, l.foldl step [] = [] := by
  intro l
  induction l with
  | nil => rfl
  | cons c rest ih =>
    rw [List.foldl_cons, hstep]
    exact ih

/-- C7 (amended): on a uniform-intensity image of any size at least
7 by 7, `detect` called with an empty feature vector returns the empty
list, for every 8-bit threshold and every arc length in the valid domain
1 to 16 (arc length 0 accepts everything, see `C7_counterexample`, and
arc lengths above 16 make the Rust slice operations panic). -/
theorem C7_detect_uniform_empty (pr : FASTDetectorParams) (img : GrayImage)
    (v : Nat) (hv : v < 256) (ht : pr.threshold < 256)
    (h1 : 1 ≤ pr.min_contig_neighbors)
    (_h16 : pr.min_contig_neighbors ≤ 16) (_hw : 7 ≤ img.width)
    (_hh : 7 ≤ img.height) (huni : ∀ x y, img.pix x y = v) :
    detect pr img [] = [] := by
  have hcp := check_pixel_uniform_false pr img v hv ht huni h1
  simp only [detect]
  have hscan : (List.range' 3 (img.height - 3 - 3)).foldl
      (fun acc row =>
        (List.range' 3 (img.width - 3 - 3)).foldl
          (fun acc2 col =>
            if (pr.do_high_speed_test && decide (pr.min_contig_neighbors = 12)
                && !high_speed_test pr img ⟨col, row⟩) = true then acc2
            else if check_pixel pr img ⟨col, row⟩ = true then
              acc2 ++ [(⟨col, row⟩ : ImgCoords)]
            else acc2)
          acc)
      [] = [] := by
    refine foldl_invariant_nil _ ?_ _
    intro row
    refine foldl_invariant_nil _ ?_ _
    intro col
    dsimp only
    split
    · rfl
    · rw [hcp ⟨col, row⟩]
      simp
  rw [hscan]
  cases hnms : pr.do_nonmax_suppression
  · simp
  · simp [nonmax_suppression_nil]

/-- Witness for the amended C7 at the default parameters on the uniform
7 by 7 image. -/
theorem C7_detect_uniform_empty_witness :
    (100 : Nat) < 256 ∧ defaultParams.threshold < 256 ∧
    1 ≤ defaultParams.min_contig_neighbors ∧
    defaultParams.min_contig_neighbors ≤ 16 ∧
    7 ≤ img7uniform.width ∧ 7 ≤ img7uniform.height ∧
    (∀ x y, img7uniform.pix x y = 100) ∧
    detect defaultParams img7uniform [] = [] :=
  ⟨by decide, by decide, by decide, by decide, by decide, by decide,
    fun _ _ => rfl,
    C7_detect_uniform_empty defaultParams img7uniform 100 (by decide)
      (by decide) (by decide) (by decide) (by decide) (by decide)
      (fun _ _ => rfl)⟩

/-! ### Exactness of the score computation (C9) -/

/-- For an 8-bit triple whose neighbor is classified Darker or Brighter,
the wrapped machine summand of `get_score` equals the exact value
|neighbor - center| - threshold, which lies in [1, 255] (so neither the
`i16` arithmetic nor the narrowing `as u32` cast ever wraps). -/
theorem score_summand_exact {t p x : Nat} (ht : t < 256) (hp : p < 256)
    (hx : x < 256)
    (hc : is_black t p x = true ∨ is_white t p x = true) :
    score_summand t p x = ((x : Int) - (p : Int)).natAbs - t ∧
    1 ≤ ((x : Int) - (p : Int)).natAbs - t ∧
    ((x : Int) - (p : Int)).natAbs - t ≤ 255 := by
  have hcc : x + t < p ∨ (p : Int) < (x : Int) - (t : Int) := by
    rcases hc with h | h
    · exact Or.inl ((is_black_iff ht hx).mp h)
    · exact Or.inr ((is_white_iff ht hx).mp h)
  unfold score_summand wrapU32
  rw [@wrapI16_eq_self ((x : Int) - (p : Int)) (by omega) (by omega)]
  rw [@wrapI16_eq_self ((((x : Int) - (p : Int)).natAbs : Int) - (t : Int))
    (by omega) (by omega)]
  rw [Int.emod_eq_of_lt (by omega) (by omega)]
  refine ⟨by omega, by omega, by omega⟩

/-- The ring classification at position `i` in terms of the pixel
comparisons. -/
theorem ring_tags_getD_eq (pr : FASTDetectorParams) (img : GrayImage)
    (coords : ImgCoords) {i : Nat} (hi : i < 16) :
    (ring_tags pr img coords).getD i ComparedToCentre.InBounds =
      (if is_black pr.threshold (img.pix coords.x coords.y)
          ((neighbor_vals img coords).getD i 0) then ComparedToCentre.Black
      else if is_white pr.threshold (img.pix coords.x coords.y)
          ((neighbor_vals img coords).getD i 0) then ComparedToCentre.White
      else ComparedToCentre.InBounds) := by
  have h1 : i < (neighbor_vals img coords).length := by
    rw [neighbor_vals_length]
    exact hi
  have h2 : i < (ring_tags pr img coords).length := by
    rw [ring_tags_length]
    exact hi
  rw [List.getD_eq_getElem _ _ h2, List.getD_eq_getElem _ _ h1]
  simp only [ring_tags, neighbor_tags, List.getElem_map]

theorem tag_black_iff (pr : FASTDetectorParams) (img : GrayImage)
    (coords : ImgCoords) {i : Nat} (hi : i < 16) :
    ((ring_tags pr img coords).getD i ComparedToCentre.InBounds =
        ComparedToCentre.Black) ↔
      is_black pr.threshold (img.pix coords.x coords.y)
        ((neighbor_vals img coords).getD i 0) = true := by
  rw [ring_tags_getD_eq pr img coords hi]
  by_cases hb : is_black pr.threshold (img.pix coords.x coords.y)
      ((neighbor_vals img coords).getD i 0) = true
  · rw [if_pos hb]
    exact iff_of_true rfl hb
  · rw [if_neg hb]
    by_cases hw : is_white pr.threshold (img.pix coords.x coords.y)
        ((neighbor_vals img coords).getD i 0) = true
    · rw [if_pos hw]
      exact iff_of_false (fun h => ComparedToCentre.noConfusion h) hb
    · rw [if_neg hw]
      exact iff_of_false (fun h => ComparedToCentre.noConfusion h) hb

theorem tag_white_iff (pr : FASTDetectorParams) (img : GrayImage)
    (coords : ImgCoords) {i : Nat} (hi : i < 16) :
    ((ring_tags pr img coords).getD i ComparedToCentre.InBounds =
        ComparedToCentre.White) ↔
      (is_black pr.threshold (img.pix coords.x coords.y)
          ((neighbor_vals img coords).getD i 0) = false ∧
        is_white pr.threshold (img.pix coords.x coords.y)
          ((neighbor_vals img coords).getD i 0) = true) := by
  rw [ring_tags_getD_eq pr img coords hi]
  by_cases hb : is_black pr.threshold (img.pix coords.x coords.y)
      ((neighbor_vals img coords).getD i 0) = true
  · rw [if_pos hb]
    refine iff_of_false (fun h => ComparedToCentre.noConfusion h) ?_
    rintro ⟨hf, _⟩
    rw [hb] at hf
    exact Bool.noConfusion hf
  · rw [if_neg hb]
    by_cases hw : is_white pr.threshold (img.pix coords.x coords.y)
        ((neighbor_vals img coords).getD i 0) = true
    · rw [if_pos hw]
      exact iff_of_true rfl ⟨Bool.eq_false_iff.mpr hb, hw⟩
    · rw [if_neg hw]
      refine iff_of_false (fun h => ComparedToCentre.noConfusion h) ?_
      rintro ⟨_, hwt⟩
      exact hw hwt

theorem list_sum_le (l : List Nat) (c : Nat) (h : ∀ x ∈ l, x ≤ c) :
    l.sum ≤ c * l.length := by
  induction l with
  | nil => simp
  | cons x rest ih =>
    rw [List.sum_cons, List.length_cons, Nat.mul_succ]
    have h1 := h x (List.mem_cons_self _ _)
    have h2 := ih fun y hy => h y (List.mem_cons_of_mem _ hy)
    omega

/-- The accumulation loop of `get_score`, split into the two per-class
sums; as long as neither accumulator can reach 2 ^ 32, the wrapping
additions are exact. -/
theorem get_score_fold (pr : FASTDetectorParams) (img : GrayImage)
    (coords : ImgCoords) :
    ∀ (l : List Nat) (a b : Nat),
      a + ((l.filter fun i => decide ((ring_tags pr img coords).getD i
          ComparedToCentre.InBounds = ComparedToCentre.Black)).map fun i =>
          score_summand pr.threshold (img.pix coords.x coords.y)
            ((neighbor_vals img coords).getD i 0)).sum < 4294967296 →
      b + ((l.filter fun i => decide ((ring_tags pr img coords).getD i
          ComparedToCentre.InBounds = ComparedToCentre.White)).map fun i =>
          score_summand pr.threshold (img.pix coords.x coords.y)
            ((neighbor_vals img coords).getD i 0)).sum < 4294967296 →
      l.foldl
        (fun (s : Nat × Nat) i =>
          if (ring_tags pr img coords).getD i ComparedToCentre.InBounds =
              ComparedToCentre.Black then
            ((s.1 + score_summand pr.threshold (img.pix coords.x coords.y)
              ((neighbor_vals img coords).getD i 0)) % 4294967296, s.2)
          else if (ring_tags pr img coords).getD i ComparedToCentre.InBounds =
              ComparedToCentre.White then
            (s.1, (s.2 + score_summand pr.threshold (img.pix coords.x coords.y)
              ((neighbor_vals img coords).getD i 0)) % 4294967296)
          else s)
        (a, b) =
      (a + ((l.filter fun i => decide ((ring_tags pr img coords).getD i
          ComparedToCentre.InBounds = ComparedToCentre.Black)).map fun i =>
          score_summand pr.threshold (img.pix coords.x coords.y)
            ((neighbor_vals img coords).getD i 0)).sum,
        b + ((l.filter fun i => decide ((ring_tags pr img coords).getD i
          ComparedToCentre.InBounds = ComparedToCentre.White)).map fun i =>
          score_summand pr.threshold (img.pix coords.x coords.y)
            ((neighbor_vals img coords).getD i 0)).sum) := by
  intro l
  induction l with
  | nil =>
    intro a b _ _
    simp
  | cons c rest ih =>
    intro a b hA hB
    rw [List.foldl_cons]
    by_cases hBc : (ring_tags pr img coords).getD c ComparedToCentre.InBounds
        = ComparedToCentre.Black
    · have hWc : ¬ (ring_tags pr img coords).getD c ComparedToCentre.InBounds
          = ComparedToCentre.White := by
        rw [hBc]
        intro h
        exact ComparedToCentre.noConfusion h
      rw [List.filter_cons_of_pos (by rw [decide_eq_true_iff]; exact hBc),
        List.map_cons, List.sum_cons] at hA ⊢
      rw [List.filter_cons_of_neg
        (by simp only [decide_eq_true_iff]; exact hWc)] at hB ⊢
      rw [if_pos hBc]
      have hg : (a + score_summand pr.threshold (img.pix coords.x coords.y)
          ((neighbor_vals img coords).getD c 0)) % 4294967296 =
          a + score_summand pr.threshold (img.pix coords.x coords.y)
            ((neighbor_vals img coords).getD c 0) :=
        Nat.mod_eq_of_lt (by omega)
      rw [hg, ih _ b (by omega) hB, Nat.add_assoc]
    · by_cases hWc : (ring_tags pr img coords).getD c
          ComparedToCentre.InBounds = ComparedToCentre.White
      · rw [List.filter_cons_of_neg
          (by simp only [decide_eq_true_iff]; exact hBc)] at hA ⊢
        rw [List.filter_cons_of_pos (by rw [decide_eq_true_iff]; exact hWc),
          List.map_cons, List.sum_cons] at hB ⊢
        rw [if_neg hBc, if_pos hWc]
        have hg : (b + score_summand pr.threshold (img.pix coords.x coords.y)
            ((neighbor_vals img coords).getD c 0)) % 4294967296 =
            b + score_summand pr.threshold (img.pix coords.x coords.y)
              ((neighbor_vals img coords).getD c 0) :=
          Nat.mod_eq_of_lt (by omega)
        rw [hg, ih a _ hA (by omega), Nat.add_assoc]
      · rw [List.filter_cons_of_neg
          (by simp only [decide_eq_true_iff]; exact hBc)] at hA ⊢
        rw [List.filter_cons_of_neg
          (by simp only [decide_eq_true_iff]; exact hWc)] at hB ⊢
        rw [if_neg hBc, if_neg hWc]
        exact ih a b hA hB

/-- C9: for every pixel, `get_score` returns exactly the maximum of the
sum over Darker-classified ring neighbors and the sum over
Brighter-classified ring neighbors of |neighbor - center| - threshold,
a non-negative exact integer; and every classified summand is at least 1,
so the narrowing `as u32` cast in the source never wraps. -/
theorem C9_get_score_exact (pr : FASTDetectorParams) (img : GrayImage)
    (coords : ImgCoords) (ht : pr.threshold < 256)
    (hpix : ∀ a b, img.pix a b < 256) :
    get_score pr img coords =
      max (score_sum_spec pr img coords ComparedToCentre.Black)
        (score_sum_spec pr img coords ComparedToCentre.White) ∧
    ∀ i < 16,
      (ring_tags pr img coords).getD i ComparedToCentre.InBounds ≠
          ComparedToCentre.InBounds →
        1 ≤ (((neighbor_vals img coords).getD i 0 : Int) -
            (img.pix coords.x coords.y : Int)).natAbs - pr.threshold := by
  have hp : img.pix coords.x coords.y < 256 := hpix _ _
  have hnvmem : ∀ w ∈ neighbor_vals img coords, w < 256 := by
    intro w hw
    unfold neighbor_vals at hw
    rw [List.mem_map] at hw
    obtain ⟨c, _, hc⟩ := hw
    rw [← hc]
    exact hpix _ _
  have hnv : ∀ i : Nat, (neighbor_vals img coords).getD i 0 < 256 := by
    intro i
    by_cases hi : i < (neighbor_vals img coords).length
    · rw [List.getD_eq_getElem _ _ hi]
      exact hnvmem _ (List.getElem_mem hi)
    · rw [List.getD_eq_default _ _ (by omega)]
      omega
  have hclass : ∀ i, i < 16 →
      (ring_tags pr img coords).getD i ComparedToCentre.InBounds ≠
        ComparedToCentre.InBounds →
      is_black pr.threshold (img.pix coords.x coords.y)
          ((neighbor_vals img coords).getD i 0) = true ∨
        is_white pr.threshold (img.pix coords.x coords.y)
          ((neighbor_vals img coords).getD i 0) = true := by
    intro i hi hne
    rw [ring_tags_getD_eq pr img coords hi] at hne
    by_cases hb : is_black pr.threshold (img.pix coords.x coords.y)
        ((neighbor_vals img coords).getD i 0) = true
    · exact Or.inl hb
    · by_cases hw : is_white pr.threshold (img.pix coords.x coords.y)
          ((neighbor_vals img coords).getD i 0) = true
      · exact Or.inr hw
      · rw [if_neg hb, if_neg hw] at hne
        exact absurd rfl hne
  refine ⟨?_, fun i hi hne =>
    (score_summand_exact ht hp (hnv i) (hclass i hi hne)).2.1⟩
  have hBfact : ∀ i ∈ (List.range 16).filter (fun i =>
      decide ((ring_tags pr img coords).getD i ComparedToCentre.InBounds =
        ComparedToCentre.Black)),
      score_summand pr.threshold (img.pix coords.x coords.y)
          ((neighbor_vals img coords).getD i 0) =
        (((neighbor_vals img coords).getD i 0 : Int) -
          (img.pix coords.x coords.y : Int)).natAbs - pr.threshold ∧
      score_summand pr.threshold (img.pix coords.x coords.y)
        ((neighbor_vals img coords).getD i 0) ≤ 255 := by
    intro i hi
    rw [List.mem_filter] at hi
    obtain ⟨hir, hit⟩ := hi
    rw [List.mem_range] at hir
    rw [decide_eq_true_iff] at hit
    have hbl := (tag_black_iff pr img coords hir).mp hit
    have hse := score_summand_exact ht hp (hnv i) (Or.inl hbl)
    refine ⟨hse.1, ?_⟩
    rw [hse.1]
    exact hse.2.2
  have hWfact : ∀ i ∈ (List.range 16).filter (fun i =>
      decide ((ring_tags pr img coords).getD i ComparedToCentre.InBounds =
        ComparedToCentre.White)),
      score_summand pr.threshold (img.pix coords.x coords.y)
          ((neighbor_vals img coords).getD i 0) =
        (((neighbor_vals img coords).getD i 0 : Int) -
          (img.pix coords.x coords.y : Int)).natAbs - pr.threshold ∧
      score_summand pr.threshold (img.pix coords.x coords.y)
        ((neighbor_vals img coords).getD i 0) ≤ 255 := by
    intro i hi
    rw [List.mem_filter] at hi
    obtain ⟨hir, hit⟩ := hi
    rw [List.mem_range] at hir
    rw [decide_eq_true_iff] at hit
    have hwh := (tag_white_iff pr img coords hir).mp hit
    have hse := score_summand_exact ht hp (hnv i) (Or.inr hwh.2)
    refine ⟨hse.1, ?_⟩
    rw [hse.1]
    exact hse.2.2
  have hsumB : (((List.range 16).filter (fun i =>
      decide ((ring_tags pr img coords).getD i ComparedToCentre.InBounds =
        ComparedToCentre.Black))).map fun i =>
      score_summand pr.threshold (img.pix coords.x coords.y)
        ((neighbor_vals img coords).getD i 0)).sum ≤ 255 * 16 := by
    have hle : ∀ x ∈ (((List.range 16).filter (fun i =>
        decide ((ring_tags pr img coords).getD i ComparedToCentre.InBounds =
          ComparedToCentre.Black))).map fun i =>
        score_summand pr.threshold (img.pix coords.x coords.y)
          ((neighbor_vals img coords).getD i 0)), x ≤ 255 := by
      intro x hx
      rw [List.mem_map] at hx
      obtain ⟨i, hi, hgx⟩ := hx
      rw [← hgx]
      exact (hBfact i hi).2
    have h1 := list_sum_le _ 255 hle
    have h2 : ((((List.range 16).filter (fun i =>
        decide ((ring_tags pr img coords).getD i ComparedToCentre.InBounds =
          ComparedToCentre.Black))).map fun i =>
        score_summand pr.threshold (img.pix coords.x coords.y)
          ((neighbor_vals img coords).getD i 0)).length) ≤ 16 := by
      rw [List.length_map]
      have h3 := List.length_filter_le (fun i =>
        decide ((ring_tags pr img coords).getD i ComparedToCentre.InBounds =
          ComparedToCentre.Black)) (List.range 16)
      rw [List.length_range] at h3
      exact h3
    have h4 := Nat.mul_le_mul (Nat.le_refl 255) h2
    omega
  have hsumW : (((List.range 16).filter (fun i =>
      decide ((ring_tags pr img coords).getD i ComparedToCentre.InBounds =
        ComparedToCentre.White))).map fun i =>
      score_summand pr.threshold (img.pix coords.x coords.y)
        ((neighbor_vals img coords).getD i 0)).sum ≤ 255 * 16 := by
    have hle : ∀ x ∈ (((List.range 16).filter (fun i =>
        decide ((ring_tags pr img coords).getD i ComparedToCentre.InBounds =
          ComparedToCentre.White))).map fun i =>
        score_summand pr.threshold (img.pix coords.x coords.y)
          ((neighbor_vals img coords).getD i 0)), x ≤ 255 := by
      intro x hx
      rw [List.mem_map] at hx
      obtain ⟨i, hi, hgx⟩ := hx
      rw [← hgx]
      exact (hWfact i hi).2
    have h1 := list_sum_le _ 255 hle
    have h2 : ((((List.range 16).filter (fun i =>
        decide ((ring_tags pr img coords).getD i ComparedToCentre.InBounds =
          ComparedToCentre.White))).map fun i =>
        score_summand pr.threshold (img.pix coords.x coords.y)
          ((neighbor_vals img coords).getD i 0)).length) ≤ 16 := by
      rw [List.length_map]
      have h3 := List.length_filter_le (fun i =>
        decide ((ring_tags pr img coords).getD i ComparedToCentre.InBounds =
          ComparedToCentre.White)) (List.range 16)
      rw [List.length_range] at h3
      exact h3
    have h4 := Nat.mul_le_mul (Nat.le_refl 255) h2
    omega
  have hcongB := List.map_congr_left fun i hi => (hBfact i hi).1
  have hcongW := List.map_congr_left fun i hi => (hWfact i hi).1
  simp only [get_score]
  rw [show neighbor_tags pr.threshold (neighbor_vals img coords)
      (img.pix coords.x coords.y) = ring_tags pr img coords from rfl]
  rw [neighbor_vals_length]
  rw [get_score_fold pr img coords (List.range 16) 0 0 (by omega) (by omega)]
  simp only [Nat.zero_add]
  rw [hcongB, hcongW]
  simp only [score_sum_spec]

/-- Witness for C9 at the default parameters on the uniform 9 by 9 image
(both class sums are empty, so the score is 0). -/
theorem C9_get_score_exact_witness :
    defaultParams.threshold < 256 ∧ (∀ a b, img9.pix a b < 256) ∧
    (get_score defaultParams img9 ⟨4, 4⟩ =
      max (score_sum_spec defaultParams img9 ⟨4, 4⟩ ComparedToCentre.Black)
        (score_sum_spec defaultParams img9 ⟨4, 4⟩ ComparedToCentre.White) ∧
    ∀ i < 16,
      (ring_tags defaultParams img9 ⟨4, 4⟩).getD i ComparedToCentre.InBounds ≠
          ComparedToCentre.InBounds →
        1 ≤ (((neighbor_vals img9 ⟨4, 4⟩).getD i 0 : Int) -
            (img9.pix 4 4 : Int)).natAbs - defaultParams.threshold) :=
  ⟨by decide, fun _ _ => (by decide : (100 : Nat) < 256),
    C9_get_score_exact defaultParams img9 ⟨4, 4⟩ (by decide)
      (fun _ _ => (by decide : (100 : Nat) < 256))⟩

/-- Witness for C10 at the default parameters on a concrete image. -/
theorem C10_check_pixel_indices_in_bounds_witness :
    defaultParams.min_contig_neighbors ≤ 16 ∧
    (defaultParams.min_contig_neighbors ≤
        (ring_tags defaultParams img9 ⟨4, 4⟩).length ∧
      defaultParams.min_contig_neighbors ≤
        (tags_once_extended defaultParams img9 ⟨4, 4⟩).length ∧
      ∀ i < (tags_once_extended defaultParams img9 ⟨4, 4⟩).length,
        i + defaultParams.min_contig_neighbors ≤
          (tags_twice_extended defaultParams img9 ⟨4, 4⟩).length) :=
  ⟨by decide,
    C10_check_pixel_indices_in_bounds defaultParams img9 ⟨4, 4⟩ (by decide)⟩

end CVDetectors
